import Mathlib

/-!
Verification development for the WAD3 spray encoder
(src/index.ts of koishi-plugin-spray).

The file embeds the pure core of the encoder:

* `resizeWithAspectRatioAndAlign` — the dimension planner (index.ts lines 20-51);
* the quantizer's palette construction and index assignment (lines 73-100);
* the mip generator (lines 103-114);
* the WAD3 serializer (lines 119-193), with JS `Buffer` writes modelled as
  positional overwrites on `List ℕ` byte lists.

Modelling decisions:

* JS numbers holding pixel dimensions, byte counts and palette indices are
  modelled as `ℕ`.  All values that arise are non-negative integers; the
  only subtraction that occurs (`w -= align`, `sizeOnDisk = mainDataEnd - 40`)
  never goes below zero on reachable states (the planner only ever subtracts
  16 from a positive multiple of 16, and `mainDataEnd ≥ 52`), so `ℕ`
  subtraction agrees with JS subtraction there.
* The planner is embedded twice.  `resizeWithAspectRatioAndAlign`
  idealizes `Math.sqrt` / `Math.floor` to their exact real-number
  semantics: for the ideal width
  `wIdeal = fw * sqrt(maxPixel / (fw*fh))` we have
  `wIdeal^2 = fw * maxPixel / fh` (as reals), hence
  `floor wIdeal = Nat.sqrt (fw * maxPixel / fh)` (with `ℕ` division), and
  `Math.floor(wIdeal / 16) * 16 = (Nat.sqrt (fw * maxPixel / fh) / 16) * 16`.
  The claims proved from this idealization rely only on facts that hold
  for arbitrary ideal-width values (alignment, clamping and the
  correction loop), so they are robust to rounding.  The
  square-independence property is not: rounding decides it, so it is
  settled against `resizeWithAspectRatioAndAlignFP`, which models the
  double arithmetic of lines 27-29 bit-exactly (round-to-nearest-even
  binary64, with `Math.sqrt`, `/` and `*` correctly rounded as IEEE-754
  requires).
* The `while (w * h > maxPixel)` correction loop is embedded as a
  structural recursion on an explicit counter that starts at `w + h`;
  every iteration removes 16 from `w + h`, so the counter strictly
  dominates the number of iterations and the zero-counter case is
  unreachable from the planner's entry point (the lemmas below that need
  this carry the counter bound `w + h ≤ 16 * fuel`, which the entry point
  satisfies trivially).
* The external image library (sharp) is out of scope: decoding yields the
  metadata width/height (`Option ℕ`, `none` = unknown), and the
  resize-plus-quantize call is an opaque function from the planned `(w, h)`
  to the decoded RGBA pixel list.
-/

namespace Spray

/-- One RGBA sample, as produced by the raw decode of the quantized image. -/
structure RGBA where
  r : ℕ
  g : ℕ
  b : ℕ
  a : ℕ
deriving DecidableEq, Repr

/-- Newton iteration for the integer square root, with a structural
recursion counter so that the kernel can evaluate it.  `guess` strictly
decreases on every recursive call, so any counter `≥ guess` yields the
same result as `Nat.sqrt.iter` (proved in `sqrtIter_eq_iter`). -/
def sqrtIter (n : ℕ) : ℕ → ℕ → ℕ
  | 0, guess => guess
  | fuel + 1, guess =>
    let next := (guess + n / guess) / 2
    if next < guess then sqrtIter n fuel next else guess

/-- Kernel-computable integer square root: the floor of the real square
root, used to model `Math.sqrt` (whose result the source immediately
floors after dividing by 16).  Agrees with `Nat.sqrt` by
`natSqrt_eq_sqrt`. -/
def natSqrt (n : ℕ) : ℕ :=
  if n ≤ 1 then n else sqrtIter n (n / 2) (n / 2)

/-- The correction loop of `resizeWithAspectRatioAndAlign`
(index.ts lines 40-48):
`while (w*h > maxPixel) { if (w >= h) w -= 16 else h -= 16;
 if (w <= 0 || h <= 0) break }`, with `align = 16` (the only value the
source ever passes).  The first argument is the structural recursion
counter; it is chosen `≥` the iteration count at the call site. -/
def shrinkLoop (maxPixel : ℕ) : ℕ → ℕ → ℕ → ℕ × ℕ
  | 0, w, h => (w, h)
  | fuel + 1, w, h =>
    if maxPixel < w * h then
      if h ≤ w then
        if w - 16 = 0 ∨ h = 0 then (w - 16, h)
        else shrinkLoop maxPixel fuel (w - 16) h
      else
        if w = 0 ∨ h - 16 = 0 then (w, h - 16)
        else shrinkLoop maxPixel fuel w (h - 16)
    else (w, h)

/-- The dimension planner (index.ts lines 20-51), at `align = 16`, with
the double arithmetic idealized to exact real arithmetic:
`natSqrt (fw * maxPixel / fh)` is the floor of the real ideal width
`fw * sqrt(maxPixel / (fw * fh))` (see the header comment), and
`floor(wIdeal / 16) * 16` is `(floor wIdeal / 16) * 16` with `ℕ`
division.  The clamp-to-16 of a zero aligned value (lines 36-37) and the
correction loop (lines 40-48) follow the source.  Where IEEE-754
rounding matters (the square-independence property of C6), the
bit-exact counterpart `resizeWithAspectRatioAndAlignFP` below is the
authority; the claims proved from this idealization use only conclusions
that hold for arbitrary ideal-width values. -/
def resizeWithAspectRatioAndAlign (fw fh maxPixel : ℕ) : ℕ × ℕ :=
  let wIdealFloor := natSqrt (fw * maxPixel / fh)
  let hIdealFloor := natSqrt (fh * maxPixel / fw)
  let w0 := wIdealFloor / 16 * 16
  let h0 := hIdealFloor / 16 * 16
  let w1 := if w0 = 0 then 16 else w0
  let h1 := if h0 = 0 then 16 else h0
  shrinkLoop maxPixel (w1 + h1) w1 h1

/-! ## Bit-exact binary64 model of the planner arithmetic

The source computes `scale`, `wIdeal` and `hIdeal` in IEEE-754 binary64
(`Math.sqrt`, `/`, `*` are all correctly rounded, round-to-nearest,
ties to even).  The following model represents a positive double as a
normalized significand-exponent pair and implements the correct
rounding exactly with integer arithmetic.  Zero, infinities, NaN and
subnormals cannot arise in the planner for positive integer inputs of
ordinary magnitude, so the positive normal range suffices. -/

/-- A positive binary64 value `m * 2^e`, normalized so that
`2^52 ≤ m < 2^53`. -/
structure FP where
  m : ℕ
  e : ℤ
deriving DecidableEq, Repr

/-- Floor of the base-two logarithm (counter-indexed structural
recursion; any counter `≥ n` yields the exact value). -/
def log2F : ℕ → ℕ → ℕ
  | 0, _ => 0
  | fuel + 1, n => if n ≤ 1 then 0 else log2F fuel (n / 2) + 1

/-- Floor of the base-two logarithm of `n`. -/
def natLog2 (n : ℕ) : ℕ := log2F n n

/-- Floor of `(a / b) * 2^(-e)`. -/
def floorScaled (a b : ℕ) (e : ℤ) : ℕ :=
  if 0 ≤ e then a / (b * 2 ^ e.toNat) else a * 2 ^ (-e).toNat / b

/-- Find the exponent `e` with `2^52 ≤ floor((a/b) * 2^-e) < 2^53`,
starting from a logarithm-based guess that is accurate to within two;
the counter 8 is ample. -/
def adjustExp : ℕ → ℕ → ℕ → ℤ → ℤ
  | 0, _, _, e => e
  | fuel + 1, a, b, e =>
    let q := floorScaled a b e
    if q < 2 ^ 52 then adjustExp fuel a b (e - 1)
    else if 2 ^ 53 ≤ q then adjustExp fuel a b (e + 1)
    else e

/-- Round the positive rational `(a / b) * 2^shift` (`a, b ≥ 1`) to the
nearest binary64 value, ties to even: take the 53 leading bits of the
quotient and round by comparing twice the remainder with the divisor.
Scaling by `2^shift` is exact (an exponent shift). -/
def roundRat (a b : ℕ) (shift : ℤ) : FP :=
  let e := adjustExp 8 a b ((natLog2 a : ℤ) - natLog2 b - 52)
  let q := floorScaled a b e
  let num := if 0 ≤ e then a else a * 2 ^ (-e).toNat
  let den := if 0 ≤ e then b * 2 ^ e.toNat else b
  let r := num - q * den
  let m :=
    if 2 * r < den then q
    else if den < 2 * r then q + 1
    else if q % 2 = 0 then q else q + 1
  if m = 2 ^ 53 then ⟨2 ^ 52, e + 1 + shift⟩ else ⟨m, e + shift⟩

/-- The double value of a positive integer (exact for `n < 2^53`; all
integers fed to the planner are far below that). -/
def toD (n : ℕ) : FP := roundRat n 1 0

/-- Correctly rounded double multiplication: round the exact product of
the significands, carrying the exponents exactly. -/
def mulD (x y : FP) : FP := roundRat (x.m * y.m) 1 (x.e + y.e)

/-- Correctly rounded double division: round the exact significand
quotient, carrying the exponents exactly. -/
def divD (x y : FP) : FP := roundRat x.m y.m (x.e - y.e)

/-- Correctly rounded double square root (`Math.sqrt`): shift the
significand by `2^52` or `2^53` to make the exponent even (the shifted
value `N` has `sqrt N` in `[2^52, 2^53)`), then round `sqrt N` to the
nearest integer — a tie is impossible since `4 * N` is even while
`(2 * r + 1)^2` is odd. -/
def sqrtD (x : FP) : FP :=
  let k : ℕ := if x.e % 2 = 0 then 52 else 53
  let N := x.m * 2 ^ k
  let r0 := natSqrt N
  let m := if 4 * r0 * r0 + 4 * r0 + 1 < 4 * N then r0 + 1 else r0
  let e2 := (x.e - k) / 2
  if m = 2 ^ 53 then ⟨2 ^ 52, e2 + 1⟩ else ⟨m, e2⟩

/-- `Math.floor` of a positive double (exact). -/
def floorD (x : FP) : ℕ :=
  if 0 ≤ x.e then x.m * 2 ^ x.e.toNat else x.m / 2 ^ (-x.e).toNat

/-- The dimension planner (index.ts lines 20-51) with its double
arithmetic modelled bit-exactly: `scale = Math.sqrt(maxPixel / (fw*fh))`
(the products and quotient rounded as binary64), ideal sizes
`fw * scale` and `fh * scale`, floor-alignment by 16 (the division
`wIdeal / 16` is an exact exponent shift), the clamp of lines 36-37,
and the same correction loop.  This is the implementation-accurate
counterpart of `resizeWithAspectRatioAndAlign`; the two differ exactly
where rounding matters (see the C6 counterexample). -/
def resizeWithAspectRatioAndAlignFP (fw fh maxPixel : ℕ) : ℕ × ℕ :=
  let scale := sqrtD (divD (toD maxPixel) (mulD (toD fw) (toD fh)))
  let wIdeal := mulD (toD fw) scale
  let hIdeal := mulD (toD fh) scale
  let w0 := floorD ⟨wIdeal.m, wIdeal.e - 4⟩ * 16
  let h0 := floorD ⟨hIdeal.m, hIdeal.e - 4⟩ * 16
  let w1 := if w0 = 0 then 16 else w0
  let h1 := if h0 = 0 then 16 else h0
  shrinkLoop maxPixel (w1 + h1) w1 h1

/-! ## Quantizer (index.ts lines 64-100)

The decoded pixel buffer is modelled as a `List RGBA` (the source walks
the raw byte buffer four bytes at a time, so one list entry per pixel).
The `seen` string-key set of the source is injective on `(r,g,b,a)`
quadruples (decimal components joined by commas), so it is modelled as
first-seen deduplication under quadruple equality. -/

/-- First-seen deduplication of the pixel scan (index.ts lines 74-83);
`seen` is the set of quadruples already pushed. -/
def dedupScan (seen : List RGBA) : List RGBA → List RGBA
  | [] => []
  | p :: ps => if p ∈ seen then dedupScan seen ps else p :: dedupScan (p :: seen) ps

/-- The ordered, deduplicated colors of the pixel buffer in first-seen
order. -/
def dedupFirstSeen (pixels : List RGBA) : List RGBA :=
  dedupScan [] pixels

/-- Palette construction (index.ts lines 73-88): distinct colors in
first-seen order, padded with opaque black `(0,0,0,255)` while shorter
than 255, then the transparency key `(0,0,255,255)` appended. -/
def buildPalette (pixels : List RGBA) : List RGBA :=
  let distinct := dedupFirstSeen pixels
  (distinct ++ List.replicate (255 - distinct.length) ⟨0, 0, 0, 255⟩) ++ [⟨0, 0, 255, 255⟩]

/-- Linear palette search, modelling `Array.prototype.findIndex` with the exact-match predicate
`c.r === r && c.g === g && c.b === b && c.a === a` (index.ts line 97);
`none` models the -1 result. -/
def findColorIdx (p : RGBA) : List RGBA → Option ℕ
  | [] => none
  | c :: rest =>
    if c.r = p.r ∧ c.g = p.g ∧ c.b = p.b ∧ c.a = p.a then some 0
    else (findColorIdx p rest).map (· + 1)

/-- The indexed pixel buffer (index.ts lines 91-100): alpha ≤ 128 maps
to the transparent index 255; otherwise the first exact palette match,
falling back to 255 when there is none. -/
def indexedPixels (palette : List RGBA) (pixels : List RGBA) : List ℕ :=
  pixels.map fun p =>
    if p.a ≤ 128 then 255
    else
      match findColorIdx p palette with
      | some idx => idx
      | none => 255

/-! ## Mip generator (index.ts lines 103-114) -/

/-- The values taken by a loop `for (v = 0; v < limit; v += step)`:
`0, step, 2*step, ...`, of which there are `⌈limit / step⌉` for
`step > 0`. -/
def stridedIndices (limit step : ℕ) : List ℕ :=
  (List.range ((limit + step - 1) / step)).map (· * step)

/-- One mip level: point-sample the base index buffer at stride `step`,
reading `indexed[y*w + x]` with fallback 255 for out-of-range
(`?? 255` in the source). -/
def mipLevel (indexed : List ℕ) (w h step : ℕ) : List ℕ :=
  (stridedIndices h step).flatMap fun y =>
    (stridedIndices w step).map fun x => indexed.getD (y * w + x) 255

/-- The four mip levels, `step = 2^level = 1 << level` for
`level = 0, 1, 2, 3`. -/
def mipsData (indexed : List ℕ) (w h : ℕ) : List (List ℕ) :=
  (List.range 4).map fun level => mipLevel indexed w h (2 ^ level)

/-! ## WAD3 serializer (index.ts lines 15-18 and 119-193)

JS `Buffer`s are byte lists; `buf.write(str, off)` /
`buf.writeUInt32LE(v, off)` / `buf.writeUInt8(v, off)` /
`buf.writeUInt16LE(0, off)` are positional overwrites that never extend
the buffer.  The `PassThrough` stream merely concatenates the written
chunks in order, so the assembled file is the concatenation of header,
mip buffers, type marker, palette bytes, padding and directory entry,
with the directory offset overwritten at byte 8 at the end. -/

/-- Overwrite `data` into `buf` starting at `off`; bytes outside the
buffer are dropped (the buffer never grows). -/
def writeBytes : List ℕ → ℕ → List ℕ → List ℕ
  | [], _, _ => []
  | b :: bs, 0, [] => b :: bs
  | _ :: bs, 0, d :: ds => d :: writeBytes bs 0 ds
  | b :: bs, off + 1, ds => b :: writeBytes bs off ds

/-- The four little-endian bytes of a 32-bit value. -/
def u32le (v : ℕ) : List ℕ :=
  [v % 256, v / 256 % 256, v / 65536 % 256, v / 16777216 % 256]

/-- Model of `buf.writeUInt32LE(v, off)` (argument order as in Node). -/
def writeUInt32LE (buf : List ℕ) (v off : ℕ) : List ℕ :=
  writeBytes buf off (u32le v)

/-- Model of `buf.readUInt32LE(off)`: the little-endian 32-bit value stored at
byte offset `off`; the observation used by the layout claims. -/
def readUInt32LE (buf : List ℕ) (off : ℕ) : ℕ :=
  buf.getD off 0 + 256 * buf.getD (off + 1) 0 + 65536 * buf.getD (off + 2) 0 +
    16777216 * buf.getD (off + 3) 0

/-- The bytes of the magic string "WAD3". -/
def wadMagic : List ℕ := [87, 65, 68, 51]

/-- The 16 bytes of the fixed texture name: left brace, L, O, G, O and
eleven NULs. -/
def logoName : List ℕ := [123, 76, 79, 71, 79, 0, 0, 0, 0, 0, 0, 0, 0, 0, 0, 0]

/-- The mip-offset loop (index.ts lines 133-137): starting with
`offset = 40` at byte position 36, write each offset and advance it by
the corresponding mip size, positions advancing by 4. -/
def writeMipOffsets : List ℕ → ℕ → ℕ → List ℕ → List ℕ
  | buf, _, _, [] => buf
  | buf, off, pos, s :: rest => writeMipOffsets (writeUInt32LE buf off pos) (off + s) (pos + 4) rest

/-- The 52-byte main header (index.ts lines 126-137): magic at 0,
lump count 1 at 4, directory-offset placeholder (zeros) at 8, name at
12, width at 28, height at 32, four mip offsets from 36. -/
def headerBytes (w h : ℕ) (mipsSizes : List ℕ) : List ℕ :=
  let b0 := List.replicate 52 0
  let b1 := writeBytes b0 0 wadMagic
  let b2 := writeUInt32LE b1 1 4
  let b3 := writeBytes b2 12 logoName
  let b4 := writeUInt32LE b3 w 28
  let b5 := writeUInt32LE b4 h 32
  writeMipOffsets b5 40 36 mipsSizes

/-- index.ts lines 15-18. -/
def requiredPadding (length multiple : ℕ) : ℕ :=
  if length % multiple = 0 then 0 else multiple - length % multiple

/-- The 32-byte lump directory entry (index.ts lines 169-177):
texture offset 12, disksize and filesize both `mainDataEnd - 40`,
type 0x43, compression 0, two dummy bytes, fixed name at 16. -/
def lumpBytes (mainDataEnd : ℕ) : List ℕ :=
  let b0 := List.replicate 32 0
  let b1 := writeUInt32LE b0 12 0
  let b2 := writeUInt32LE b1 (mainDataEnd - 40) 4
  let b3 := writeUInt32LE b2 (mainDataEnd - 40) 8
  let b4 := writeBytes b3 12 [67]
  let b5 := writeBytes b4 13 [0]
  let b6 := writeBytes b5 14 [0, 0]
  writeBytes b6 16 logoName

/-- The 768 palette bytes (index.ts lines 149-155): for each of the 256
slots, the r, g, b of the palette entry, or zeros when the palette is
shorter (`rgbaPalette[i] || {r:0,g:0,b:0}`). -/
def paletteBytes (palette : List RGBA) : List ℕ :=
  (List.range 256).flatMap fun i =>
    let c := palette.getD i ⟨0, 0, 0, 0⟩
    [c.r, c.g, c.b]

/-- The WAD3 serializer (index.ts lines 116-193): header, mip buffers,
type marker `[0,1,0,0]`, palette bytes, zero padding to a multiple of 4,
the 32-byte directory entry, and finally the directory offset
(`mainDataEnd`) backfilled at byte 8. -/
def serializeWad3 (w h : ℕ) (mips : List (List ℕ)) (palette : List RGBA) : List ℕ :=
  let mipsSizes := mips.map List.length
  let totalMipSize := mipsSizes.sum
  let currentLength := 52 + totalMipSize + 4 + 256 * 3
  let pad := requiredPadding currentLength 4
  let mainDataEnd := currentLength + pad
  let full := headerBytes w h mipsSizes ++ mips.flatten ++ [0, 1, 0, 0] ++ paletteBytes palette ++
    List.replicate pad 0 ++ lumpBytes mainDataEnd
  writeUInt32LE full mainDataEnd 8

/-- The encoder (index.ts lines 53-193).  `mw`, `mh` are the decoded
metadata width and height (`none` = unknown, as for `!fw`; JS `!x` is
also true for 0).  `quantize` is the external sharp call: resize to the
planned `(w, h)`, quantize to at most 255 colors, decode to raw RGBA —
a function from the planned dimensions to the pixel list.  Fatal errors
are the `Except.error` cases and produce no buffer. -/
def generateWad3Spray (mw mh : Option ℕ) (maxPixiel : ℕ)
    (quantize : ℕ → ℕ → List RGBA) : Except String (List ℕ) :=
  let fw := mw.getD 0
  let fh := mh.getD 0
  if fw = 0 ∨ fh = 0 then Except.error "Invalid image"
  else
    let wh := resizeWithAspectRatioAndAlign fw fh maxPixiel
    if wh.1 = 0 ∨ wh.2 = 0 then Except.error "Invalid image size"
    else
      let pixelData := quantize wh.1 wh.2
      let palette := buildPalette pixelData
      let indexed := indexedPixels palette pixelData
      let mips := mipsData indexed wh.1 wh.2
      Except.ok (serializeWad3 wh.1 wh.2 mips palette)

/-- A concrete quantize capability for witnesses: an empty pixel list
(every read falls back to the defaults the source provides). -/
def demoQuantize : ℕ → ℕ → List RGBA := fun _ _ => []

/-- The output of a concrete successful encode: metadata 16×16,
`maxPixiel = 256`, planner result (16, 16). -/
def demoOut : List ℕ :=
  serializeWad3 16 16 (mipsData (indexedPixels (buildPalette []) []) 16 16) (buildPalette [])

/-! ## Theorems -/


theorem sqrtIter_eq_iter (n : ℕ) :
    ∀ fuel guess, guess ≤ fuel → sqrtIter n fuel guess = Nat.sqrt.iter n guess := by
  intro fuel
  induction fuel with
  | zero =>
    intro guess hg
    have hg0 : guess = 0 := Nat.le_zero.mp hg
    subst hg0
    rw [sqrtIter, Nat.sqrt.iter]
    simp
  | succ f ih =>
    intro guess hg
    rw [sqrtIter, Nat.sqrt.iter]
    by_cases hlt : (guess + n / guess) / 2 < guess
    · simp only [hlt, if_true, dif_pos hlt]
      exact ih _ (by omega)
    · simp [hlt]

/-- The in-file integer square root agrees with `Nat.sqrt`. -/
theorem natSqrt_eq_sqrt (n : ℕ) : natSqrt n = Nat.sqrt n := by
  rw [natSqrt, Nat.sqrt]
  by_cases h : n ≤ 1
  · simp [h]
  · simp only [h, if_false]
    exact sqrtIter_eq_iter n (n / 2) (n / 2) le_rfl

/-- Unfolding of the planner to its correction loop. -/
theorem resize_eq_shrink (fw fh mp : ℕ) :
    resizeWithAspectRatioAndAlign fw fh mp =
      shrinkLoop mp
        ((if natSqrt (fw * mp / fh) / 16 * 16 = 0 then 16 else natSqrt (fw * mp / fh) / 16 * 16) +
          (if natSqrt (fh * mp / fw) / 16 * 16 = 0 then 16 else natSqrt (fh * mp / fw) / 16 * 16))
        (if natSqrt (fw * mp / fh) / 16 * 16 = 0 then 16 else natSqrt (fw * mp / fh) / 16 * 16)
        (if natSqrt (fh * mp / fw) / 16 * 16 = 0 then 16 else natSqrt (fh * mp / fw) / 16 * 16) :=
  rfl

theorem startVal_dvd (x : ℕ) : 16 ∣ (if x / 16 * 16 = 0 then 16 else x / 16 * 16) := by
  split
  · exact dvd_refl 16
  · exact dvd_mul_left 16 (x / 16)

theorem startVal_pos (x : ℕ) : 0 < (if x / 16 * 16 = 0 then 16 else x / 16 * 16) := by
  split
  · omega
  · omega

/-- The correction loop keeps both components multiples of 16. -/
theorem shrinkLoop_dvd (mp : ℕ) :
    ∀ fuel w h, 16 ∣ w → 16 ∣ h →
      16 ∣ (shrinkLoop mp fuel w h).1 ∧ 16 ∣ (shrinkLoop mp fuel w h).2 := by
  intro fuel
  induction fuel with
  | zero => intro w h hw hh; exact ⟨hw, hh⟩
  | succ f ih =>
    intro w h hw hh
    rw [shrinkLoop]
    by_cases hcond : mp < w * h
    · rw [if_pos hcond]
      by_cases hwh : h ≤ w
      · rw [if_pos hwh]
        by_cases hbrk : w - 16 = 0 ∨ h = 0
        · rw [if_pos hbrk]
          exact ⟨Nat.dvd_sub' hw (dvd_refl 16), hh⟩
        · rw [if_neg hbrk]
          exact ih _ _ (Nat.dvd_sub' hw (dvd_refl 16)) hh
      · rw [if_neg hwh]
        by_cases hbrk : w = 0 ∨ h - 16 = 0
        · rw [if_pos hbrk]
          exact ⟨hw, Nat.dvd_sub' hh (dvd_refl 16)⟩
        · rw [if_neg hbrk]
          exact ih _ _ hw (Nat.dvd_sub' hh (dvd_refl 16))
    · rw [if_neg hcond]
      exact ⟨hw, hh⟩

/-- On exit the loop's product is within the budget, provided the
counter dominates the iteration count (each iteration removes 16 from
`w + h`; a break only happens with a zero component, whose product is
0). -/
theorem shrinkLoop_mul_le (mp : ℕ) :
    ∀ fuel w h, w + h ≤ 16 * fuel →
      (shrinkLoop mp fuel w h).1 * (shrinkLoop mp fuel w h).2 ≤ mp := by
  intro fuel
  induction fuel with
  | zero =>
    intro w h hf
    have hw : w = 0 := by omega
    subst hw
    simp [shrinkLoop]
  | succ f ih =>
    intro w h hf
    rw [shrinkLoop]
    by_cases hcond : mp < w * h
    · rw [if_pos hcond]
      by_cases hwh : h ≤ w
      · rw [if_pos hwh]
        by_cases hbrk : w - 16 = 0 ∨ h = 0
        · rw [if_pos hbrk]
          rcases hbrk with h0 | h0 <;> simp [h0]
        · rw [if_neg hbrk]
          exact ih _ _ (by omega)
      · rw [if_neg hwh]
        by_cases hbrk : w = 0 ∨ h - 16 = 0
        · rw [if_pos hbrk]
          rcases hbrk with h0 | h0 <;> simp [h0]
        · rw [if_neg hbrk]
          exact ih _ _ (by omega)
    · rw [if_neg hcond]
      exact Nat.le_of_not_lt hcond

/-- With a budget of at least 256 = 16*16 the loop never drives a
component to zero: whenever the product still exceeds the budget, the
larger component is at least 32, so subtracting 16 keeps it positive. -/
theorem shrinkLoop_pos (mp : ℕ) (hmp : 256 ≤ mp) :
    ∀ fuel w h, 16 ∣ w → 16 ∣ h → 0 < w → 0 < h →
      0 < (shrinkLoop mp fuel w h).1 ∧ 0 < (shrinkLoop mp fuel w h).2 := by
  intro fuel
  induction fuel with
  | zero => intro w h _ _ hwp hhp; exact ⟨hwp, hhp⟩
  | succ f ih =>
    intro w h hw hh hwp hhp
    rw [shrinkLoop]
    by_cases hcond : mp < w * h
    · rw [if_pos hcond]
      obtain ⟨kw, rfl⟩ := hw
      obtain ⟨kh, rfl⟩ := hh
      by_cases hwh : 16 * kh ≤ 16 * kw
      · rw [if_pos hwh]
        have hkw2 : 2 ≤ kw := by
          by_contra hlt
          have hkw1 : kw = 1 := by omega
          have hkh1 : kh = 1 := by omega
          rw [hkw1, hkh1] at hcond
          omega
        rw [if_neg (by omega : ¬(16 * kw - 16 = 0 ∨ 16 * kh = 0))]
        have h16 : 16 * kw - 16 = 16 * (kw - 1) := by omega
        rw [h16]
        exact ih _ _ ⟨kw - 1, rfl⟩ ⟨kh, rfl⟩ (by omega) (by omega)
      · rw [if_neg hwh]
        have hkh2 : 2 ≤ kh := by omega
        rw [if_neg (by omega : ¬(16 * kw = 0 ∨ 16 * kh - 16 = 0))]
        have h16 : 16 * kh - 16 = 16 * (kh - 1) := by omega
        rw [h16]
        exact ih _ _ ⟨kw, rfl⟩ ⟨kh - 1, rfl⟩ (by omega) (by omega)
    · rw [if_neg hcond]
      exact ⟨hwp, hhp⟩

/-- With a budget below 256 the loop always ends in the safety break,
leaving a zero component: two positive multiples of 16 always have a
product of at least 256. -/
theorem shrinkLoop_degenerate (mp : ℕ) (hmp : mp < 256) :
    ∀ fuel w h, 16 ∣ w → 16 ∣ h → 0 < w → 0 < h → w + h ≤ 16 * fuel →
      (shrinkLoop mp fuel w h).1 = 0 ∨ (shrinkLoop mp fuel w h).2 = 0 := by
  intro fuel
  induction fuel with
  | zero => intro w h _ _ hwp hhp hf; omega
  | succ f ih =>
    intro w h hw hh hwp hhp hf
    rw [shrinkLoop]
    obtain ⟨kw, rfl⟩ := hw
    obtain ⟨kh, rfl⟩ := hh
    have hge : 256 ≤ 16 * kw * (16 * kh) := by
      have h1 : 16 ≤ 16 * kw := by omega
      have h2 : 16 ≤ 16 * kh := by omega
      calc (256 : ℕ) = 16 * 16 := by norm_num
        _ ≤ 16 * kw * (16 * kh) := Nat.mul_le_mul h1 h2
    rw [if_pos (by omega : mp < 16 * kw * (16 * kh))]
    by_cases hwh : 16 * kh ≤ 16 * kw
    · rw [if_pos hwh]
      by_cases hkw1 : kw = 1
      · rw [if_pos (by omega : 16 * kw - 16 = 0 ∨ 16 * kh = 0)]
        left
        simpa using by omega
      · rw [if_neg (by omega : ¬(16 * kw - 16 = 0 ∨ 16 * kh = 0))]
        have h16 : 16 * kw - 16 = 16 * (kw - 1) := by omega
        rw [h16]
        exact ih _ _ ⟨kw - 1, rfl⟩ ⟨kh, rfl⟩ (by omega) (by omega) (by omega)
    · rw [if_neg hwh]
      by_cases hkh1 : kh = 1
      · rw [if_pos (by omega : 16 * kw = 0 ∨ 16 * kh - 16 = 0)]
        right
        simpa using by omega
      · rw [if_neg (by omega : ¬(16 * kw = 0 ∨ 16 * kh - 16 = 0))]
        have h16 : 16 * kh - 16 = 16 * (kh - 1) := by omega
        rw [h16]
        exact ih _ _ ⟨kw, rfl⟩ ⟨kh - 1, rfl⟩ (by omega) (by omega) (by omega)

/-- Combined properties of the correction loop from the planner's entry
point (both start values positive multiples of 16, counter `w + h`). -/
theorem resize_core_aux (mp W H : ℕ) (hW : 16 ∣ W) (hH : 16 ∣ H)
    (hWp : 0 < W) (hHp : 0 < H) :
    16 ∣ (shrinkLoop mp (W + H) W H).1 ∧ 16 ∣ (shrinkLoop mp (W + H) W H).2 ∧
    (shrinkLoop mp (W + H) W H).1 * (shrinkLoop mp (W + H) W H).2 ≤ mp ∧
    (256 ≤ mp → 0 < (shrinkLoop mp (W + H) W H).1 ∧ 0 < (shrinkLoop mp (W + H) W H).2) ∧
    (mp < 256 → (shrinkLoop mp (W + H) W H).1 = 0 ∨ (shrinkLoop mp (W + H) W H).2 = 0) := by
  obtain ⟨d1, d2⟩ := shrinkLoop_dvd mp (W + H) W H hW hH
  refine ⟨d1, d2, shrinkLoop_mul_le mp (W + H) W H (by omega), ?_, ?_⟩
  · intro hmp
    exact shrinkLoop_pos mp hmp (W + H) W H hW hH hWp hHp
  · intro hmp
    exact shrinkLoop_degenerate mp hmp (W + H) W H hW hH hWp hHp (by omega)

/-- Core planner facts used by several claims below. -/
theorem resize_core (fw fh mp : ℕ) :
    16 ∣ (resizeWithAspectRatioAndAlign fw fh mp).1 ∧
    16 ∣ (resizeWithAspectRatioAndAlign fw fh mp).2 ∧
    (resizeWithAspectRatioAndAlign fw fh mp).1 * (resizeWithAspectRatioAndAlign fw fh mp).2 ≤ mp ∧
    (256 ≤ mp →
      0 < (resizeWithAspectRatioAndAlign fw fh mp).1 ∧
      0 < (resizeWithAspectRatioAndAlign fw fh mp).2) ∧
    (mp < 256 →
      (resizeWithAspectRatioAndAlign fw fh mp).1 = 0 ∨
      (resizeWithAspectRatioAndAlign fw fh mp).2 = 0) := by
  rw [resize_eq_shrink]
  exact resize_core_aux mp _ _ (startVal_dvd _) (startVal_dvd _) (startVal_pos _) (startVal_pos _)

/-- C1 (counterexample): the claim as stated fails at `fw = 1`, `fh = 1`,
`maxPixel = 1` (all positive): the planner returns `(0, 16)`, whose width
is not positive, so the output is not a pair of positive multiples of 16
with product within the budget. -/
theorem planner_C1_counterexample :
    ¬ (0 < (resizeWithAspectRatioAndAlign 1 1 1).1 ∧
       0 < (resizeWithAspectRatioAndAlign 1 1 1).2 ∧
       16 ∣ (resizeWithAspectRatioAndAlign 1 1 1).1 ∧
       16 ∣ (resizeWithAspectRatioAndAlign 1 1 1).2 ∧
       (resizeWithAspectRatioAndAlign 1 1 1).1 * (resizeWithAspectRatioAndAlign 1 1 1).2 ≤ 1) := by
  decide

/-- C1 (amended): for every source width `fw > 0`, height `fh > 0` and
`maxPixel > 0`, the dimension planner returns `(w, h)` where `w` and `h`
are multiples of 16 with `w * h ≤ maxPixel`, and whenever additionally
`maxPixel ≥ 256` both `w` and `h` are positive. -/
theorem planner_C1_amended (fw fh mp : ℕ) (hfw : 0 < fw) (hfh : 0 < fh) (hmp : 0 < mp) :
    16 ∣ (resizeWithAspectRatioAndAlign fw fh mp).1 ∧
    16 ∣ (resizeWithAspectRatioAndAlign fw fh mp).2 ∧
    (resizeWithAspectRatioAndAlign fw fh mp).1 * (resizeWithAspectRatioAndAlign fw fh mp).2 ≤ mp ∧
    (256 ≤ mp →
      0 < (resizeWithAspectRatioAndAlign fw fh mp).1 ∧
      0 < (resizeWithAspectRatioAndAlign fw fh mp).2) := by
  obtain ⟨d1, d2, hle, hpos, _⟩ := resize_core fw fh mp
  exact ⟨d1, d2, hle, hpos⟩

theorem planner_C1_amended_witness :
    16 ∣ (resizeWithAspectRatioAndAlign 256 256 12288).1 ∧
    16 ∣ (resizeWithAspectRatioAndAlign 256 256 12288).2 ∧
    (resizeWithAspectRatioAndAlign 256 256 12288).1 *
      (resizeWithAspectRatioAndAlign 256 256 12288).2 ≤ 12288 ∧
    (256 ≤ 12288 →
      0 < (resizeWithAspectRatioAndAlign 256 256 12288).1 ∧
      0 < (resizeWithAspectRatioAndAlign 256 256 12288).2) :=
  planner_C1_amended 256 256 12288 (by decide) (by decide) (by decide)

/-- C10: for every `fw > 0` and `fh > 0`, the planner's result has a zero
component (the degenerate case that the caller turns into the fatal
"Invalid image size" error) if and only if `maxPixel < 256`; and whenever
`maxPixel ≥ 256` the planner returns `w ≥ 16` and `h ≥ 16` with
`w * h ≤ maxPixel`, so the error branch is unreachable there. -/
theorem planner_C10_degenerate_iff (fw fh mp : ℕ) (hfw : 0 < fw) (hfh : 0 < fh) :
    (((resizeWithAspectRatioAndAlign fw fh mp).1 = 0 ∨
      (resizeWithAspectRatioAndAlign fw fh mp).2 = 0) ↔ mp < 256) ∧
    (256 ≤ mp →
      16 ≤ (resizeWithAspectRatioAndAlign fw fh mp).1 ∧
      16 ≤ (resizeWithAspectRatioAndAlign fw fh mp).2 ∧
      (resizeWithAspectRatioAndAlign fw fh mp).1 *
        (resizeWithAspectRatioAndAlign fw fh mp).2 ≤ mp) := by
  obtain ⟨d1, d2, hle, hpos, hdeg⟩ := resize_core fw fh mp
  constructor
  · constructor
    · intro hz
      by_contra hlt
      obtain ⟨p1, p2⟩ := hpos (by omega)
      omega
    · exact hdeg
  · intro hmp
    obtain ⟨p1, p2⟩ := hpos hmp
    exact ⟨Nat.le_of_dvd p1 d1, Nat.le_of_dvd p2 d2, hle⟩

theorem planner_C10_degenerate_iff_witness :
    (((resizeWithAspectRatioAndAlign 1 1 100).1 = 0 ∨
      (resizeWithAspectRatioAndAlign 1 1 100).2 = 0) ↔ 100 < 256) ∧
    (256 ≤ 100 →
      16 ≤ (resizeWithAspectRatioAndAlign 1 1 100).1 ∧
      16 ≤ (resizeWithAspectRatioAndAlign 1 1 100).2 ∧
      (resizeWithAspectRatioAndAlign 1 1 100).1 *
        (resizeWithAspectRatioAndAlign 1 1 100).2 ≤ 100) :=
  planner_C10_degenerate_iff 1 1 100 (by decide) (by decide)

set_option maxRecDepth 10000 in
/-- C6 (counterexample): in the code's IEEE-754 double arithmetic the
claim fails at a concrete input.  With the common budget
`maxPixel = 1024`, the square source 1×1 is planned as (32, 32), but
the square source 65×65 is planned as (16, 16):
`65 * Math.sqrt(1024 / 4225)` evaluates to 31.999999999999996, strictly
below 32, so its aligned floor is 16 rather than 32.  Two square
sources of different absolute resolution therefore do not always
receive identical target dimensions. -/
theorem planner_C6_counterexample :
    resizeWithAspectRatioAndAlignFP 1 1 1024 = (32, 32) ∧
    resizeWithAspectRatioAndAlignFP 65 65 1024 = (16, 16) ∧
    resizeWithAspectRatioAndAlignFP 65 65 1024 ≠ resizeWithAspectRatioAndAlignFP 1 1 1024 := by
  decide

set_option maxRecDepth 10000 in
/-- C6 (amended): under the planner's exact-real-arithmetic
idealization (`scale = sqrt(maxPixel / (fw*fh))` computed exactly, as
the spec's own reasoning assumes), any two square source images of
positive resolutions yield identical target dimensions for a common
positive budget; in the implementation's binary64 arithmetic this can
fail (see the counterexample), but the claim's cited examples do hold
there: `fw = fh = 256` with `maxPixel = 12288` is planned as (96, 96),
and `fw = fh = 1024` with `maxPixel = 12288` yields the same
(96, 96). -/
theorem planner_C6_amended :
    (∀ a b mp : ℕ, 0 < a → 0 < b → 0 < mp →
      resizeWithAspectRatioAndAlign a a mp = resizeWithAspectRatioAndAlign b b mp) ∧
    resizeWithAspectRatioAndAlignFP 256 256 12288 = (96, 96) ∧
    resizeWithAspectRatioAndAlignFP 1024 1024 12288 = (96, 96) := by
  have key : ∀ a mp : ℕ, 0 < a →
      resizeWithAspectRatioAndAlign a a mp = resizeWithAspectRatioAndAlign 1 1 mp := by
    intro a mp ha
    rw [resize_eq_shrink, resize_eq_shrink, Nat.mul_div_cancel_left mp ha]
    norm_num
  exact ⟨fun a b mp ha hb _ => (key a mp ha).trans (key b mp hb).symm, by decide, by decide⟩

theorem planner_C6_amended_witness :
    resizeWithAspectRatioAndAlign 3 3 500 = resizeWithAspectRatioAndAlign 7 7 500 :=
  planner_C6_amended.1 3 7 500 (by decide) (by decide) (by decide)

/-! ## Byte-buffer lemmas -/

theorem writeBytes_length : ∀ (buf : List ℕ) (off : ℕ) (data : List ℕ),
    (writeBytes buf off data).length = buf.length := by
  intro buf
  induction buf with
  | nil => intro off data; rfl
  | cons b bs ih =>
    intro off data
    cases off with
    | zero =>
      cases data with
      | nil => rfl
      | cons d ds => simp [writeBytes, ih 0 ds]
    | succ o => simp [writeBytes, ih o data]

theorem writeUInt32LE_length (buf : List ℕ) (v off : ℕ) :
    (writeUInt32LE buf v off).length = buf.length :=
  writeBytes_length buf off (u32le v)

/-- Bytes strictly before the written range are untouched. -/
theorem writeBytes_getD_lt : ∀ (buf : List ℕ) (off : ℕ) (data : List ℕ) (i : ℕ), i < off →
    (writeBytes buf off data).getD i 0 = buf.getD i 0 := by
  intro buf
  induction buf with
  | nil => intro off data i _; rfl
  | cons b bs ih =>
    intro off data i h
    cases off with
    | zero => omega
    | succ o =>
      cases i with
      | zero => simp [writeBytes]
      | succ j =>
        simp only [writeBytes, List.getD_cons_succ]
        exact ih o data j (by omega)

/-- Bytes at or beyond the end of the written range are untouched. -/
theorem writeBytes_getD_ge : ∀ (buf : List ℕ) (off : ℕ) (data : List ℕ) (i : ℕ),
    off + data.length ≤ i →
    (writeBytes buf off data).getD i 0 = buf.getD i 0 := by
  intro buf
  induction buf with
  | nil => intro off data i _; rfl
  | cons b bs ih =>
    intro off data i h
    cases off with
    | zero =>
      cases data with
      | nil => rfl
      | cons d ds =>
        cases i with
        | zero => simp at h
        | succ j =>
          simp only [writeBytes, List.getD_cons_succ]
          exact ih 0 ds j (by simp at h; omega)
    | succ o =>
      cases i with
      | zero => simp [writeBytes]
      | succ j =>
        simp only [writeBytes, List.getD_cons_succ]
        exact ih o data j (by omega)

/-- Bytes inside the written range (and inside the buffer) come from
`data`. -/
theorem writeBytes_getD_inside : ∀ (buf : List ℕ) (off : ℕ) (data : List ℕ) (i : ℕ),
    off ≤ i → i < off + data.length → i < buf.length →
    (writeBytes buf off data).getD i 0 = data.getD (i - off) 0 := by
  intro buf
  induction buf with
  | nil => intro off data i _ _ h3; simp at h3
  | cons b bs ih =>
    intro off data i h1 h2 h3
    cases off with
    | zero =>
      cases data with
      | nil => simp at h2
      | cons d ds =>
        cases i with
        | zero => simp [writeBytes]
        | succ j =>
          simp only [writeBytes, List.getD_cons_succ, Nat.sub_zero]
          exact ih 0 ds j (Nat.zero_le j) (by simp at h2 ⊢; omega) (by simp at h3; omega)
    | succ o =>
      cases i with
      | zero => omega
      | succ j =>
        simp only [writeBytes, List.getD_cons_succ, Nat.succ_sub_succ]
        exact ih o data j (by omega) (by omega) (by simp at h3; omega)

theorem u32le_length (v : ℕ) : (u32le v).length = 4 := rfl

/-- Reading back a 32-bit little-endian write recovers the value. -/
theorem readUInt32LE_writeUInt32LE (buf : List ℕ) (v off : ℕ)
    (hbuf : off + 4 ≤ buf.length) (hv : v < 4294967296) :
    readUInt32LE (writeUInt32LE buf v off) off = v := by
  have hlen : (u32le v).length = 4 := rfl
  unfold readUInt32LE writeUInt32LE
  rw [writeBytes_getD_inside buf off (u32le v) off le_rfl (by omega) (by omega),
      writeBytes_getD_inside buf off (u32le v) (off + 1) (by omega) (by omega) (by omega),
      writeBytes_getD_inside buf off (u32le v) (off + 2) (by omega) (by omega) (by omega),
      writeBytes_getD_inside buf off (u32le v) (off + 3) (by omega) (by omega) (by omega)]
  simp only [Nat.sub_self, Nat.add_sub_cancel_left, u32le]
  norm_num [List.getD]
  omega

/-- A 32-bit read is unaffected by a write to a disjoint range. -/
theorem readUInt32LE_writeBytes_disjoint (buf : List ℕ) (off : ℕ) (data : List ℕ) (pos : ℕ)
    (hd : pos + 4 ≤ off ∨ off + data.length ≤ pos) :
    readUInt32LE (writeBytes buf off data) pos = readUInt32LE buf pos := by
  unfold readUInt32LE
  rcases hd with h | h
  · rw [writeBytes_getD_lt _ _ _ _ (by omega), writeBytes_getD_lt _ _ _ _ (by omega),
        writeBytes_getD_lt _ _ _ _ (by omega), writeBytes_getD_lt _ _ _ _ (by omega)]
  · rw [writeBytes_getD_ge _ _ _ _ (by omega), writeBytes_getD_ge _ _ _ _ (by omega),
        writeBytes_getD_ge _ _ _ _ (by omega), writeBytes_getD_ge _ _ _ _ (by omega)]

/-- A 32-bit read inside the left part of an append reads the left part. -/
theorem readUInt32LE_append_left (l1 l2 : List ℕ) (pos : ℕ) (h : pos + 4 ≤ l1.length) :
    readUInt32LE (l1 ++ l2) pos = readUInt32LE l1 pos := by
  unfold readUInt32LE
  rw [List.getD_append _ _ _ _ (by omega), List.getD_append _ _ _ _ (by omega),
      List.getD_append _ _ _ _ (by omega), List.getD_append _ _ _ _ (by omega)]

theorem writeMipOffsets_length : ∀ (sizes : List ℕ) (buf : List ℕ) (off pos : ℕ),
    (writeMipOffsets buf off pos sizes).length = buf.length := by
  intro sizes
  induction sizes with
  | nil => intro buf off pos; rfl
  | cons s rest ih =>
    intro buf off pos
    rw [writeMipOffsets, ih, writeUInt32LE_length]

theorem headerBytes_length (w h : ℕ) (sizes : List ℕ) :
    (headerBytes w h sizes).length = 52 := by
  unfold headerBytes
  rw [writeMipOffsets_length, writeUInt32LE_length, writeUInt32LE_length, writeBytes_length,
      writeUInt32LE_length, writeBytes_length]
  rfl

theorem lumpBytes_length (mainDataEnd : ℕ) : (lumpBytes mainDataEnd).length = 32 := by
  unfold lumpBytes
  rw [writeBytes_length, writeBytes_length, writeBytes_length, writeBytes_length,
      writeUInt32LE_length, writeUInt32LE_length, writeUInt32LE_length]
  rfl

theorem length_flatMap_const {α : Type} (f : α → List ℕ) (c : ℕ) :
    ∀ l : List α, (∀ a ∈ l, (f a).length = c) → (l.flatMap f).length = l.length * c := by
  intro l
  induction l with
  | nil => intro _; simp
  | cons a as ih =>
    intro hf
    simp only [List.flatMap_cons, List.length_append, List.length_cons]
    rw [hf a (by simp), ih fun x hx => hf x (by simp [hx])]
    ring

theorem paletteBytes_length (palette : List RGBA) : (paletteBytes palette).length = 768 := by
  have h := length_flatMap_const
    (fun i => let c := palette.getD i ⟨0, 0, 0, 0⟩; [c.r, c.g, c.b]) 3 (List.range 256)
    fun a _ => rfl
  unfold paletteBytes
  rw [h]
  simp

theorem readUInt32LE_writeUInt32LE_disjoint (buf : List ℕ) (v off pos : ℕ)
    (hd : pos + 4 ≤ off ∨ off + 4 ≤ pos) :
    readUInt32LE (writeUInt32LE buf v off) pos = readUInt32LE buf pos :=
  readUInt32LE_writeBytes_disjoint buf off (u32le v) pos (by
    have h4 : (u32le v).length = 4 := rfl
    omega)

/-- The serialized file is the main data (52-byte header, mip data, type
marker, palette, padding) followed by the 32-byte directory entry. -/
theorem serializeWad3_length (w h : ℕ) (mips : List (List ℕ)) (palette : List RGBA) :
    (serializeWad3 w h mips palette).length =
      52 + (mips.map List.length).sum + 4 + 768 +
        requiredPadding (52 + (mips.map List.length).sum + 4 + 256 * 3) 4 + 32 := by
  simp only [serializeWad3]
  rw [writeUInt32LE_length]
  simp only [List.length_append, headerBytes_length, paletteBytes_length, lumpBytes_length,
    List.length_flatten, List.length_replicate, List.length_cons, List.length_nil]

theorem serialize_read8_aux (full : List ℕ) (mde : ℕ) (hfull : full.length = mde + 32)
    (hlen : mde + 32 < 4294967296) :
    readUInt32LE (writeUInt32LE full mde 8) 8 = (writeUInt32LE full mde 8).length - 32 := by
  rw [writeUInt32LE_length, hfull,
    readUInt32LE_writeUInt32LE full mde 8 (by omega) (by omega)]
  omega

/-- C2 at the serializer level: the backfilled 32-bit value at byte 8 is
the length of the output minus the 32-byte directory entry. -/
theorem serializeWad3_read8 (w h : ℕ) (mips : List (List ℕ)) (palette : List RGBA)
    (hlen : (serializeWad3 w h mips palette).length < 4294967296) :
    readUInt32LE (serializeWad3 w h mips palette) 8 =
      (serializeWad3 w h mips palette).length - 32 := by
  have hL := serializeWad3_length w h mips palette
  rw [hL] at hlen
  simp only [serializeWad3]
  apply serialize_read8_aux
  · simp only [List.length_append, headerBytes_length, paletteBytes_length, lumpBytes_length,
      List.length_flatten, List.length_replicate, List.length_cons, List.length_nil]
  · omega

/-- Reading the four mip-offset fields written by the loop at positions
36, 40, 44, 48 over any 52-byte buffer. -/
theorem writeMipOffsets4_reads (B : List ℕ) (hB : B.length = 52) (s0 s1 s2 s3 : ℕ)
    (h1 : 40 + s0 < 4294967296) (h2 : 40 + s0 + s1 < 4294967296)
    (h3 : 40 + s0 + s1 + s2 < 4294967296) :
    readUInt32LE (writeMipOffsets B 40 36 [s0, s1, s2, s3]) 36 = 40 ∧
    readUInt32LE (writeMipOffsets B 40 36 [s0, s1, s2, s3]) 40 = 40 + s0 ∧
    readUInt32LE (writeMipOffsets B 40 36 [s0, s1, s2, s3]) 44 = 40 + s0 + s1 ∧
    readUInt32LE (writeMipOffsets B 40 36 [s0, s1, s2, s3]) 48 = 40 + s0 + s1 + s2 := by
  simp only [writeMipOffsets]
  norm_num
  have L1 : (writeUInt32LE B 40 36).length = 52 := by rw [writeUInt32LE_length, hB]
  have L2 : (writeUInt32LE (writeUInt32LE B 40 36) (40 + s0) 40).length = 52 := by
    rw [writeUInt32LE_length, L1]
  have L3 : (writeUInt32LE (writeUInt32LE (writeUInt32LE B 40 36) (40 + s0) 40)
      (40 + s0 + s1) 44).length = 52 := by
    rw [writeUInt32LE_length, L2]
  refine ⟨?_, ?_, ?_, ?_⟩
  · rw [readUInt32LE_writeUInt32LE_disjoint _ _ _ _ (by omega),
      readUInt32LE_writeUInt32LE_disjoint _ _ _ _ (by omega),
      readUInt32LE_writeUInt32LE_disjoint _ _ _ _ (by omega),
      readUInt32LE_writeUInt32LE B 40 36 (by omega) (by omega)]
  · rw [readUInt32LE_writeUInt32LE_disjoint _ _ _ _ (by omega),
      readUInt32LE_writeUInt32LE_disjoint _ _ _ _ (by omega),
      readUInt32LE_writeUInt32LE _ (40 + s0) 40 (by omega) (by omega)]
  · rw [readUInt32LE_writeUInt32LE_disjoint _ _ _ _ (by omega),
      readUInt32LE_writeUInt32LE _ (40 + s0 + s1) 44 (by omega) (by omega)]
  · rw [readUInt32LE_writeUInt32LE _ (40 + s0 + s1 + s2) 48 (by omega) (by omega)]

/-- Reading the four mip-offset fields of the 52-byte header. -/
theorem headerBytes_reads (w h s0 s1 s2 s3 : ℕ)
    (h1 : 40 + s0 < 4294967296) (h2 : 40 + s0 + s1 < 4294967296)
    (h3 : 40 + s0 + s1 + s2 < 4294967296) :
    readUInt32LE (headerBytes w h [s0, s1, s2, s3]) 36 = 40 ∧
    readUInt32LE (headerBytes w h [s0, s1, s2, s3]) 40 = 40 + s0 ∧
    readUInt32LE (headerBytes w h [s0, s1, s2, s3]) 44 = 40 + s0 + s1 ∧
    readUInt32LE (headerBytes w h [s0, s1, s2, s3]) 48 = 40 + s0 + s1 + s2 := by
  have hB : (writeUInt32LE (writeUInt32LE (writeBytes (writeUInt32LE
      (writeBytes (List.replicate 52 0) 0 wadMagic) 1 4) 12 logoName) w 28) h 32).length = 52 := by
    rw [writeUInt32LE_length, writeUInt32LE_length, writeBytes_length, writeUInt32LE_length,
      writeBytes_length]
    rfl
  simp only [headerBytes]
  exact writeMipOffsets4_reads _ hB s0 s1 s2 s3 h1 h2 h3

/-- Reading a 32-bit field of the 52-byte leftmost block of the
assembled file (after the backfill write at byte 8) reads that block. -/
theorem read_header_of_concat (H A B C D E : List ℕ) (mde pos : ℕ)
    (hH : H.length = 52) (hpos : pos + 4 ≤ 52) (hpos2 : 12 ≤ pos) :
    readUInt32LE (writeUInt32LE (H ++ A ++ B ++ C ++ D ++ E) mde 8) pos =
      readUInt32LE H pos := by
  rw [readUInt32LE_writeUInt32LE_disjoint _ _ _ _ (by omega),
    readUInt32LE_append_left _ _ _ (by simp only [List.length_append]; omega),
    readUInt32LE_append_left _ _ _ (by simp only [List.length_append]; omega),
    readUInt32LE_append_left _ _ _ (by simp only [List.length_append]; omega),
    readUInt32LE_append_left _ _ _ (by simp only [List.length_append]; omega),
    readUInt32LE_append_left _ _ _ (by omega)]

/-- C3 at the serializer level. -/
theorem serializeWad3_mip_offsets (w h : ℕ) (m0 m1 m2 m3 : List ℕ) (palette : List RGBA)
    (hlen : (serializeWad3 w h [m0, m1, m2, m3] palette).length < 4294967296) :
    readUInt32LE (serializeWad3 w h [m0, m1, m2, m3] palette) 36 = 40 ∧
    readUInt32LE (serializeWad3 w h [m0, m1, m2, m3] palette) 40 = 40 + m0.length ∧
    readUInt32LE (serializeWad3 w h [m0, m1, m2, m3] palette) 44 =
      40 + m0.length + m1.length ∧
    readUInt32LE (serializeWad3 w h [m0, m1, m2, m3] palette) 48 =
      40 + m0.length + m1.length + m2.length := by
  have hL := serializeWad3_length w h [m0, m1, m2, m3] palette
  rw [hL] at hlen
  simp only [List.map_cons, List.map_nil, List.sum_cons, List.sum_nil] at hlen
  simp only [serializeWad3, List.map_cons, List.map_nil, List.sum_cons, List.sum_nil]
  have hdr := headerBytes_reads w h m0.length m1.length m2.length m3.length
    (by omega) (by omega) (by omega)
  have hhl : (headerBytes w h [m0.length, m1.length, m2.length, m3.length]).length = 52 :=
    headerBytes_length w h _
  refine ⟨?_, ?_, ?_, ?_⟩
  · rw [read_header_of_concat _ _ _ _ _ _ _ _ hhl (by omega) (by omega)]
    exact hdr.1
  · rw [read_header_of_concat _ _ _ _ _ _ _ _ hhl (by omega) (by omega)]
    exact hdr.2.1
  · rw [read_header_of_concat _ _ _ _ _ _ _ _ hhl (by omega) (by omega)]
    exact hdr.2.2.1
  · rw [read_header_of_concat _ _ _ _ _ _ _ _ hhl (by omega) (by omega)]
    exact hdr.2.2.2

/-- Inversion of a successful encode: the output buffer is the
serialization of the quantize/index/mip pipeline at the planned
dimensions. -/
theorem generate_ok_inv (mw mh : Option ℕ) (mp : ℕ) (q : ℕ → ℕ → List RGBA) (out : List ℕ)
    (hok : generateWad3Spray mw mh mp q = Except.ok out) :
    out = serializeWad3
      (resizeWithAspectRatioAndAlign (mw.getD 0) (mh.getD 0) mp).1
      (resizeWithAspectRatioAndAlign (mw.getD 0) (mh.getD 0) mp).2
      (mipsData
        (indexedPixels
          (buildPalette (q (resizeWithAspectRatioAndAlign (mw.getD 0) (mh.getD 0) mp).1
            (resizeWithAspectRatioAndAlign (mw.getD 0) (mh.getD 0) mp).2))
          (q (resizeWithAspectRatioAndAlign (mw.getD 0) (mh.getD 0) mp).1
            (resizeWithAspectRatioAndAlign (mw.getD 0) (mh.getD 0) mp).2))
        (resizeWithAspectRatioAndAlign (mw.getD 0) (mh.getD 0) mp).1
        (resizeWithAspectRatioAndAlign (mw.getD 0) (mh.getD 0) mp).2)
      (buildPalette (q (resizeWithAspectRatioAndAlign (mw.getD 0) (mh.getD 0) mp).1
        (resizeWithAspectRatioAndAlign (mw.getD 0) (mh.getD 0) mp).2)) := by
  simp only [generateWad3Spray] at hok
  by_cases h1 : mw.getD 0 = 0 ∨ mh.getD 0 = 0
  · rw [if_pos h1] at hok
    exact absurd hok (by simp)
  · rw [if_neg h1] at hok
    by_cases h2 : (resizeWithAspectRatioAndAlign (mw.getD 0) (mh.getD 0) mp).1 = 0 ∨
        (resizeWithAspectRatioAndAlign (mw.getD 0) (mh.getD 0) mp).2 = 0
    · rw [if_pos h2] at hok
      exact absurd hok (by simp)
    · rw [if_neg h2] at hok
      simp only [Except.ok.injEq] at hok
      exact hok.symm

/-- For levels 0..3 the step `1 << level` takes the values 1, 2, 4, 8. -/
theorem mipsData_eq (indexed : List ℕ) (w h : ℕ) :
    mipsData indexed w h =
      [mipLevel indexed w h 1, mipLevel indexed w h 2, mipLevel indexed w h 4,
        mipLevel indexed w h 8] := rfl

/-- C2: for every successfully encoded image, the little-endian 32-bit
value at byte offset 8 of the output equals the output's byte length
minus 32, i.e. the absolute offset where the final 32-byte directory
entry begins.  (The length bound reflects that a 32-bit field can only
ever store such a value; Node's `writeUInt32LE` throws beyond it.) -/
theorem wad_C2_directory_offset (mw mh : Option ℕ) (mp : ℕ) (q : ℕ → ℕ → List RGBA)
    (out : List ℕ) (hok : generateWad3Spray mw mh mp q = Except.ok out)
    (hlen : out.length < 4294967296) :
    readUInt32LE out 8 = out.length - 32 := by
  rw [generate_ok_inv mw mh mp q out hok] at hlen ⊢
  exact serializeWad3_read8 _ _ _ _ hlen

/-- C3: for every successfully encoded image, the four little-endian
32-bit mip-offset fields at byte offsets 36, 40, 44 and 48 equal 40,
40 + len(mip0), 40 + len(mip0) + len(mip1) and
40 + len(mip0) + len(mip1) + len(mip2), where len(mipK) is the byte
length of the level-K mip buffer (steps 1, 2, 4). -/
theorem wad_C3_mip_offsets (mw mh : Option ℕ) (mp : ℕ) (q : ℕ → ℕ → List RGBA)
    (out : List ℕ) (w h : ℕ)
    (hwh : resizeWithAspectRatioAndAlign (mw.getD 0) (mh.getD 0) mp = (w, h))
    (hok : generateWad3Spray mw mh mp q = Except.ok out)
    (hlen : out.length < 4294967296) :
    readUInt32LE out 36 = 40 ∧
    readUInt32LE out 40 =
      40 + (mipLevel (indexedPixels (buildPalette (q w h)) (q w h)) w h 1).length ∧
    readUInt32LE out 44 =
      40 + (mipLevel (indexedPixels (buildPalette (q w h)) (q w h)) w h 1).length +
        (mipLevel (indexedPixels (buildPalette (q w h)) (q w h)) w h 2).length ∧
    readUInt32LE out 48 =
      40 + (mipLevel (indexedPixels (buildPalette (q w h)) (q w h)) w h 1).length +
        (mipLevel (indexedPixels (buildPalette (q w h)) (q w h)) w h 2).length +
        (mipLevel (indexedPixels (buildPalette (q w h)) (q w h)) w h 4).length := by
  have hinv := generate_ok_inv mw mh mp q out hok
  rw [hwh] at hinv
  simp only at hinv
  rw [mipsData_eq] at hinv
  subst hinv
  exact serializeWad3_mip_offsets w h _ _ _ _ _ hlen

set_option maxRecDepth 10000 in

theorem wad_C2_directory_offset_witness : readUInt32LE demoOut 8 = demoOut.length - 32 :=
  wad_C2_directory_offset (some 16) (some 16) 256 demoQuantize demoOut (by rfl) (by decide)

set_option maxRecDepth 10000 in

theorem wad_C3_mip_offsets_witness :
    readUInt32LE demoOut 36 = 40 ∧
    readUInt32LE demoOut 40 =
      40 + (mipLevel (indexedPixels (buildPalette (demoQuantize 16 16)) (demoQuantize 16 16))
        16 16 1).length ∧
    readUInt32LE demoOut 44 =
      40 + (mipLevel (indexedPixels (buildPalette (demoQuantize 16 16)) (demoQuantize 16 16))
        16 16 1).length +
        (mipLevel (indexedPixels (buildPalette (demoQuantize 16 16)) (demoQuantize 16 16))
          16 16 2).length ∧
    readUInt32LE demoOut 48 =
      40 + (mipLevel (indexedPixels (buildPalette (demoQuantize 16 16)) (demoQuantize 16 16))
        16 16 1).length +
        (mipLevel (indexedPixels (buildPalette (demoQuantize 16 16)) (demoQuantize 16 16))
          16 16 2).length +
        (mipLevel (indexedPixels (buildPalette (demoQuantize 16 16)) (demoQuantize 16 16))
          16 16 4).length :=
  wad_C3_mip_offsets (some 16) (some 16) 256 demoQuantize demoOut 16 16 (by decide) (by rfl)
    (by decide)

/-! ## Quantizer lemmas -/

/-- Everything kept by the deduplicating scan occurs in the scanned
list. -/

theorem dedupScan_subset : ∀ (l seen : List RGBA) (x : RGBA), x ∈ dedupScan seen l → x ∈ l := by
  intro l
  induction l with
  | nil => intro seen x hx; simp [dedupScan] at hx
  | cons p ps ih =>
    intro seen x hx
    rw [dedupScan] at hx
    by_cases hp : p ∈ seen
    · rw [if_pos hp] at hx
      exact List.mem_cons_of_mem p (ih seen x hx)
    · rw [if_neg hp] at hx
      rcases List.mem_cons.mp hx with rfl | h2
      · exact List.mem_cons_self _ _
      · exact List.mem_cons_of_mem p (ih _ x h2)

theorem buildPalette_length (pixels : List RGBA)
    (hle : (dedupFirstSeen pixels).length ≤ 255) :
    (buildPalette pixels).length = 256 := by
  unfold buildPalette
  simp only [List.length_append, List.length_replicate, List.length_cons, List.length_nil]
  omega

theorem buildPalette_last (pixels : List RGBA)
    (hle : (dedupFirstSeen pixels).length ≤ 255) :
    (buildPalette pixels).getD 255 ⟨0, 0, 0, 0⟩ = ⟨0, 0, 255, 255⟩ := by
  unfold buildPalette
  have hlen : (dedupFirstSeen pixels ++
      List.replicate (255 - (dedupFirstSeen pixels).length) (⟨0, 0, 0, 255⟩ : RGBA)).length
      = 255 := by
    simp only [List.length_append, List.length_replicate]
    omega
  rw [List.getD_append_right _ _ _ _ (by omega), hlen]
  norm_num

theorem buildPalette_mem (pixels : List RGBA) (i : ℕ) (hi : i < 255) :
    (buildPalette pixels).getD i ⟨0, 0, 0, 0⟩ ∈ pixels ∨
    (buildPalette pixels).getD i ⟨0, 0, 0, 0⟩ = ⟨0, 0, 0, 255⟩ := by
  unfold buildPalette
  by_cases hid : i < (dedupFirstSeen pixels).length
  · left
    rw [List.getD_append _ _ _ _ (by simp only [List.length_append]; omega),
      List.getD_append _ _ _ _ hid, List.getD_eq_getElem _ _ hid]
    exact dedupScan_subset pixels [] _ (List.getElem_mem hid)
  · right
    have hb : i - (dedupFirstSeen pixels).length <
        (List.replicate (255 - (dedupFirstSeen pixels).length) (⟨0, 0, 0, 255⟩ : RGBA)).length := by
      simp only [List.length_replicate]
      omega
    rw [List.getD_append _ _ _ _
        (by simp only [List.length_append, List.length_replicate]; omega),
      List.getD_append_right _ _ _ _ (by omega), List.getD_eq_getElem _ _ hb,
      List.getElem_replicate]

/-- C4: whenever the reduced pixel buffer holds at most 255 distinct
colors, the palette has length exactly 256, its entry 255 is the fixed
transparency key (0,0,255,255), and every entry below 255 is either a
color occurring in the reduced pixel buffer or the black padding value
(0,0,0,255). -/
theorem palette_C4 (pixels : List RGBA) (hle : (dedupFirstSeen pixels).length ≤ 255) :
    (buildPalette pixels).length = 256 ∧
    (buildPalette pixels).getD 255 ⟨0, 0, 0, 0⟩ = ⟨0, 0, 255, 255⟩ ∧
    ∀ i, i < 255 →
      (buildPalette pixels).getD i ⟨0, 0, 0, 0⟩ ∈ pixels ∨
      (buildPalette pixels).getD i ⟨0, 0, 0, 0⟩ = ⟨0, 0, 0, 255⟩ :=
  ⟨buildPalette_length pixels hle, buildPalette_last pixels hle,
    fun i hi => buildPalette_mem pixels i hi⟩

theorem palette_C4_witness :
    (buildPalette [⟨1, 2, 3, 200⟩]).length = 256 ∧
    (buildPalette [⟨1, 2, 3, 200⟩]).getD 255 ⟨0, 0, 0, 0⟩ = ⟨0, 0, 255, 255⟩ ∧
    ∀ i, i < 255 →
      (buildPalette [⟨1, 2, 3, 200⟩]).getD i ⟨0, 0, 0, 0⟩ ∈ [⟨1, 2, 3, 200⟩] ∨
      (buildPalette [⟨1, 2, 3, 200⟩]).getD i ⟨0, 0, 0, 0⟩ = ⟨0, 0, 0, 255⟩ :=
  palette_C4 [⟨1, 2, 3, 200⟩] (by decide)

/-! ## Mip-generator lemmas -/

theorem mipLevel_length (indexed : List ℕ) (w h step : ℕ) :
    (mipLevel indexed w h step).length =
      ((h + step - 1) / step) * ((w + step - 1) / step) := by
  have hf : ∀ y ∈ stridedIndices h step,
      ((stridedIndices w step).map fun x => indexed.getD (y * w + x) 255).length =
        (w + step - 1) / step := by
    intro y _
    simp [stridedIndices]
  unfold mipLevel
  rw [length_flatMap_const
    (fun y => (stridedIndices w step).map fun x => indexed.getD (y * w + x) 255)
    ((w + step - 1) / step) (stridedIndices h step) hf]
  simp [stridedIndices]

/-- C5: for a base of dimensions (w, h), each mip level k in 0..3 with
step 2^k has length ceil(w / 2^k) * ceil(h / 2^k); level 0 has length
exactly w * h. -/
theorem mips_C5_lengths (indexed : List ℕ) (w h : ℕ) (hw : 0 < w) (hh : 0 < h) :
    (∀ k, k < 4 →
      ((mipsData indexed w h).getD k []).length =
        ((w + 2 ^ k - 1) / 2 ^ k) * ((h + 2 ^ k - 1) / 2 ^ k)) ∧
    ((mipsData indexed w h).getD 0 []).length = w * h := by
  rw [mipsData_eq]
  constructor
  · intro k hk
    interval_cases k
    · simp only [List.getD_cons_zero]
      rw [mipLevel_length]
      norm_num [Nat.mul_comm]
    · simp only [List.getD_cons_succ, List.getD_cons_zero]
      rw [mipLevel_length]
      norm_num [Nat.mul_comm]
    · simp only [List.getD_cons_succ, List.getD_cons_zero]
      rw [mipLevel_length]
      norm_num [Nat.mul_comm]
    · simp only [List.getD_cons_succ, List.getD_cons_zero]
      rw [mipLevel_length]
      norm_num [Nat.mul_comm]
  · simp only [List.getD_cons_zero]
    rw [mipLevel_length]
    norm_num [Nat.mul_comm]

theorem mips_C5_lengths_witness :
    ((mipsData [] 16 16).getD 2 []).length =
      ((16 + 2 ^ 2 - 1) / 2 ^ 2) * ((16 + 2 ^ 2 - 1) / 2 ^ 2) :=
  (mips_C5_lengths [] 16 16 (by decide) (by decide)).1 2 (by decide)

/-! ## Index-buffer lemmas -/

theorem getD_eq_of_forall (l : List ℕ) :
    ∀ i, (∀ x ∈ l, x = 255) → l.getD i 255 = 255 := by
  induction l with
  | nil => intro i _; rfl
  | cons a as ih =>
    intro i hall
    cases i with
    | zero => simpa using hall a (by simp)
    | succ j => simpa using ih j fun x hx => hall x (by simp [hx])

theorem getD_le_of_forall (l : List ℕ) :
    ∀ i, (∀ x ∈ l, x ≤ 255) → l.getD i 255 ≤ 255 := by
  induction l with
  | nil => intro i _; exact Nat.le_refl 255
  | cons a as ih =>
    intro i hall
    cases i with
    | zero => simpa using hall a (by simp)
    | succ j => simpa using ih j fun x hx => hall x (by simp [hx])

/-- A found palette index is an index into the palette. -/
theorem findColorIdx_lt (p : RGBA) : ∀ (l : List RGBA) (i : ℕ),
    findColorIdx p l = some i → i < l.length := by
  intro l
  induction l with
  | nil => intro i hi; simp [findColorIdx] at hi
  | cons c rest ih =>
    intro i hi
    rw [findColorIdx] at hi
    by_cases hc : c.r = p.r ∧ c.g = p.g ∧ c.b = p.b ∧ c.a = p.a
    · rw [if_pos hc] at hi
      simp only [Option.some.injEq] at hi
      simp [← hi]
    · rw [if_neg hc] at hi
      cases hfi : findColorIdx p rest with
      | none => rw [hfi] at hi; simp at hi
      | some j =>
        rw [hfi] at hi
        simp at hi
        have := ih j hfi
        simp only [List.length_cons]
        omega

/-- C7: when every pixel's alpha is at most 128, the base index buffer
is all 255, and consequently all four mip buffers are all 255. -/
theorem transparent_C7 (pixels : List RGBA) (w h : ℕ)
    (hall : ∀ p ∈ pixels, p.a ≤ 128) :
    (∀ v ∈ indexedPixels (buildPalette pixels) pixels, v = 255) ∧
    (∀ mip ∈ mipsData (indexedPixels (buildPalette pixels) pixels) w h,
      ∀ v ∈ mip, v = 255) := by
  have hidx : ∀ v ∈ indexedPixels (buildPalette pixels) pixels, v = 255 := by
    intro v hv
    unfold indexedPixels at hv
    rcases List.mem_map.mp hv with ⟨p, hp, he⟩
    rw [← he, if_pos (hall p hp)]
  refine ⟨hidx, ?_⟩
  intro mip hmip v hv
  unfold mipsData at hmip
  rcases List.mem_map.mp hmip with ⟨lvl, _, hmip2⟩
  rw [← hmip2] at hv
  unfold mipLevel at hv
  rcases List.mem_flatMap.mp hv with ⟨y, _, hv2⟩
  rcases List.mem_map.mp hv2 with ⟨x, _, he⟩
  rw [← he]
  exact getD_eq_of_forall _ _ hidx

theorem transparent_C7_witness :
    (indexedPixels (buildPalette [⟨5, 5, 5, 0⟩]) [⟨5, 5, 5, 0⟩]).getD 0 0 = 255 :=
  (transparent_C7 [⟨5, 5, 5, 0⟩] 1 1 (by decide)).1 _ (by decide)

/-- C8: given that the reduced pixel buffer holds at most 255 distinct
colors (so that the palette has exactly 256 entries), every value of
the base index buffer and of all four mip buffers lies in [0, 255]
(values are `ℕ`, so the lower bound is inherent). -/
theorem index_range_C8 (pixels : List RGBA) (w h : ℕ)
    (hle : (dedupFirstSeen pixels).length ≤ 255) :
    (∀ v ∈ indexedPixels (buildPalette pixels) pixels, v ≤ 255) ∧
    (∀ mip ∈ mipsData (indexedPixels (buildPalette pixels) pixels) w h,
      ∀ v ∈ mip, v ≤ 255) := by
  have hplen : (buildPalette pixels).length = 256 := buildPalette_length pixels hle
  have hidx : ∀ v ∈ indexedPixels (buildPalette pixels) pixels, v ≤ 255 := by
    intro v hv
    unfold indexedPixels at hv
    rcases List.mem_map.mp hv with ⟨p, _, he⟩
    rw [← he]
    by_cases hpa : p.a ≤ 128
    · rw [if_pos hpa]
    · rw [if_neg hpa]
      cases hfi : findColorIdx p (buildPalette pixels) with
      | none => simp
      | some j =>
        have hj := findColorIdx_lt p (buildPalette pixels) j hfi
        rw [hplen] at hj
        simp only
        omega
  refine ⟨hidx, ?_⟩
  intro mip hmip v hv
  unfold mipsData at hmip
  rcases List.mem_map.mp hmip with ⟨lvl, _, hmip2⟩
  rw [← hmip2] at hv
  unfold mipLevel at hv
  rcases List.mem_flatMap.mp hv with ⟨y, _, hv2⟩
  rcases List.mem_map.mp hv2 with ⟨x, _, he⟩
  rw [← he]
  exact getD_le_of_forall _ _ hidx

theorem index_range_C8_witness :
    (indexedPixels (buildPalette [⟨7, 8, 9, 255⟩]) [⟨7, 8, 9, 255⟩]).getD 0 0 ≤ 255 :=
  (index_range_C8 [⟨7, 8, 9, 255⟩] 1 1 (by decide)).1 _ (by decide)

/-- C9: the encode fails with "Invalid image" exactly when the decoded
width or height is missing or zero; it fails with "Invalid image size"
exactly when the metadata is valid but the planner result has a zero
component; and a fatal error never comes with an output buffer. -/
theorem errors_C9 (mw mh : Option ℕ) (mp : ℕ) (q : ℕ → ℕ → List RGBA) :
    (generateWad3Spray mw mh mp q = Except.error "Invalid image" ↔
      mw.getD 0 = 0 ∨ mh.getD 0 = 0) ∧
    (generateWad3Spray mw mh mp q = Except.error "Invalid image size" ↔
      ¬(mw.getD 0 = 0 ∨ mh.getD 0 = 0) ∧
      ((resizeWithAspectRatioAndAlign (mw.getD 0) (mh.getD 0) mp).1 = 0 ∨
        (resizeWithAspectRatioAndAlign (mw.getD 0) (mh.getD 0) mp).2 = 0)) ∧
    (∀ e, generateWad3Spray mw mh mp q = Except.error e →
      ∀ out, generateWad3Spray mw mh mp q ≠ Except.ok out) := by
  simp only [generateWad3Spray]
  by_cases h1 : mw.getD 0 = 0 ∨ mh.getD 0 = 0
  · rw [if_pos h1]
    refine ⟨by simp [h1], ?_, ?_⟩
    · constructor
      · intro he
        simp only [Except.error.injEq] at he
        exact absurd he (by decide)
      · rintro ⟨hn, _⟩
        exact absurd h1 hn
    · intro e _ out
      simp
  · rw [if_neg h1]
    by_cases h2 : (resizeWithAspectRatioAndAlign (mw.getD 0) (mh.getD 0) mp).1 = 0 ∨
        (resizeWithAspectRatioAndAlign (mw.getD 0) (mh.getD 0) mp).2 = 0
    · rw [if_pos h2]
      refine ⟨?_, by simp [h1, h2], ?_⟩
      · constructor
        · intro he
          simp only [Except.error.injEq] at he
          exact absurd he (by decide)
        · intro hc
          exact absurd hc h1
      · intro e _ out
        simp
    · rw [if_neg h2]
      refine ⟨⟨fun he => by simp at he, fun hc => absurd hc h1⟩, ?_, ?_⟩
      · constructor
        · intro he
          simp at he
        · rintro ⟨_, hc⟩
          exact absurd hc h2
      · intro e he out
        simp at he

theorem errors_C9_witness :
    generateWad3Spray (some 16) (some 16) 1 demoQuantize ≠ Except.ok [] :=
  (errors_C9 (some 16) (some 16) 1 demoQuantize).2.2 "Invalid image size"
    ((errors_C9 (some 16) (some 16) 1 demoQuantize).2.1.mpr (by decide)) []

end Spray

